import Mathlib

/-
Verification of the DissMatch student-supervisor assignment script
(src/DissMatch.py). The script reads supervisor rows (name, workload,
five area-preference columns) and student rows (name, proposal_*
columns), normalizes area labels, scores every (student, supervisor,
area) triple, builds a 0/1 program with per-student, per-supervisor and
eligibility-pruning constraints, solves it, and recomputes statistics
from the solved variable values.

The embedding below models the pipeline shallowly: rows become
structures, pandas cells become Option String, the PuLP variable
dictionary becomes a Finset of selected triples (a 0/1 valuation), and
the solver is abstracted as any valuation; an optimal run is a
valuation that is feasible and maximizes the objective among all
feasible subsets of the variable set.
-/

namespace DissMatch

/-! ### Text normalizer (DissMatch.py lines 19-23)

`normalize_area` strips whitespace, digits, periods and commas and then
lowercases; non-string cells pass through unchanged. The Python regex
classes are modelled over the ASCII range that core Lean `Char`
predicates cover, and `str.lower` by `Char.toLower`. -/

/-- Character class removed by the regex `[\s\d\.,]+` in `normalize_area`. -/
def strippedChar (c : Char) : Bool :=
  c.isWhitespace || c.isDigit || c == '.' || c == ','

/-- Source `normalize_area` on the string branch: remove the stripped
characters, then lowercase. -/
def normalize_area (s : String) : String :=
  ⟨(s.data.filter (fun c => !strippedChar c)).map Char.toLower⟩

/-- A raw spreadsheet cell: either a string or a non-string value
(e.g. the NaN that pandas yields for an empty cell), tagged opaquely. -/
inductive Cell where
  | str (s : String)
  | nonstr (tag : Nat)
deriving DecidableEq

/-- Source `normalize_area` including the `isinstance(text, str)` guard:
non-string input is returned unchanged. -/
def normalize_area_cell : Cell → Cell
  | .str s => .str (normalize_area s)
  | .nonstr t => .nonstr t

theorem char_eq_iff_toNat (a b : Char) : a = b ↔ a.toNat = b.toNat :=
  ⟨fun h => h ▸ rfl, fun h => Char.ext (UInt32.toNat.inj h)⟩

theorem strippedChar_iff (c : Char) : strippedChar c = true ↔
    (c.toNat = 32 ∨ c.toNat = 9 ∨ c.toNat = 13 ∨ c.toNat = 10 ∨
     (48 ≤ c.toNat ∧ c.toNat ≤ 57) ∨ c.toNat = 46 ∨ c.toNat = 44) := by
  simp [strippedChar, Char.isWhitespace, Char.isDigit, char_eq_iff_toNat,
    UInt32.le_def, BitVec.le_def, Char.toNat, UInt32.toNat, GE.ge]
  tauto

theorem toNat_toLower (c : Char) :
    c.toLower.toNat = if 65 ≤ c.toNat ∧ c.toNat ≤ 90 then c.toNat + 32 else c.toNat := by
  rw [Char.toLower]
  split
  · next h =>
    have hv : (c.toNat + 32).isValidChar := Or.inl (by omega)
    rw [Char.ofNat, dif_pos hv]
    simp [Char.ofNatAux, Char.toNat, UInt32.toNat, BitVec.ofNatLt]
  · rfl

theorem strippedChar_toLower (c : Char) : strippedChar c.toLower = strippedChar c := by
  rcases hs : strippedChar c with _ | _
  · rcases h : strippedChar c.toLower with _ | _
    · rfl
    · exfalso
      have h2 := (strippedChar_iff c.toLower).mp h
      rw [toNat_toLower] at h2
      by_cases hc : 65 ≤ c.toNat ∧ c.toNat ≤ 90
      · rw [if_pos hc] at h2; omega
      · rw [if_neg hc] at h2
        have := (strippedChar_iff c).not.mp (by simp [hs])
        push_neg at this
        omega
  · have h2 := (strippedChar_iff c).mp hs
    have hlow : c.toLower = c := by
      rw [Char.toLower, if_neg (by omega)]
    rw [hlow, hs]

theorem toLower_toLower (c : Char) : c.toLower.toLower = c.toLower := by
  apply char_eq_iff_toNat _ _ |>.mpr
  rw [toNat_toLower, toNat_toLower]
  by_cases hc : 65 ≤ c.toNat ∧ c.toNat ≤ 90
  · rw [if_pos hc, if_neg (by omega)]
  · simp [if_neg hc]

theorem normalize_area_idem (s : String) :
    normalize_area (normalize_area s) = normalize_area s := by
  rcases s with ⟨l⟩
  simp only [normalize_area]
  congr 1
  rw [List.filter_map]
  have h1 : (l.filter (fun c => !strippedChar c)).filter
      ((fun c => !strippedChar c) ∘ Char.toLower) =
      l.filter (fun c => !strippedChar c) := by
    apply List.filter_eq_self.mpr
    intro a ha
    simp only [Function.comp, strippedChar_toLower]
    exact (List.mem_filter.mp ha).2
  rw [h1, List.map_map]
  apply List.map_congr_left
  intro a _
  simp [Function.comp, toLower_toLower]

/-! ### Satisfaction scorer (DissMatch.py lines 81-102)

The source functions look up the preference list of the person in a
module-level dictionary; here they take the list directly. Each source
test `len(prefs) > k and area == prefs[k]` is exactly
`prefs[k]? = some area`. -/

/-- Source `student_points`: 10/7/5 for the first/second/third listed
preference, otherwise -10. -/
def student_points (prefs : List String) (area : String) : Int :=
  if prefs[0]? = some area then 10
  else if prefs[1]? = some area then 7
  else if prefs[2]? = some area then 5
  else -10

/-- Source `supervisor_points`: 5/4/3/2/1 for the first through fifth
listed preference, otherwise -10. -/
def supervisor_points (prefs : List String) (area : String) : Int :=
  if prefs[0]? = some area then 5
  else if prefs[1]? = some area then 4
  else if prefs[2]? = some area then 3
  else if prefs[3]? = some area then 2
  else if prefs[4]? = some area then 1
  else -10

/-- Student-side tier table as the spec words it: rank 0 yields 10,
rank 1 yields 7, rank 2 yields 5, anything else yields -10. -/
def rankUtilStudent (r : Nat) : Int :=
  if r = 0 then 10 else if r = 1 then 7 else if r = 2 then 5 else -10

/-- Supervisor-side tier table as the spec words it: ranks 0-4 yield
5,4,3,2,1, anything else yields -10. -/
def rankUtilSupervisor (r : Nat) : Int :=
  if r = 0 then 5 else if r = 1 then 4 else if r = 2 then 3
  else if r = 3 then 2 else if r = 4 then 1 else -10

/-- Spec-side student utility: the tier of the rank (first occurrence)
of the area in the preference sequence, -10 if the area is not listed. -/
def studentUtilSpec (prefs : List String) (a : String) : Int :=
  if a ∈ prefs then rankUtilStudent (prefs.indexOf a) else -10

/-- Spec-side supervisor utility, analogously over five tiers. -/
def supervisorUtilSpec (prefs : List String) (a : String) : Int :=
  if a ∈ prefs then rankUtilSupervisor (prefs.indexOf a) else -10

/-! ### Data model (DissMatch.py lines 34-55)

A supervisor row has a name, an integer workload and exactly the five
cells of columns area1..area5; a student row has a name and the cells
of the proposal_* columns in column order. A cell is `none` where
pandas would report NaN (`pd.notnull` false). -/

structure Supervisor where
  name : String
  workload : Nat
  area1 : Option String
  area2 : Option String
  area3 : Option String
  area4 : Option String
  area5 : Option String

structure Student where
  name : String
  proposals : List (Option String)

structure ProblemData where
  supervisors : List Supervisor
  students : List Student

/-- The five cells `row[col] for col in supervisor_area_cols` of one row. -/
def supervisorCols (v : Supervisor) : List (Option String) :=
  [v.area1, v.area2, v.area3, v.area4, v.area5]

def supervisor_names (d : ProblemData) : List String := d.supervisors.map (·.name)

def student_names (d : ProblemData) : List String := d.students.map (·.name)

/-- Source `raw_areas`: the area1..area5 cells of all supervisor rows,
flattened row-major. -/
def raw_areas (d : ProblemData) : List (Option String) :=
  (d.supervisors.map supervisorCols).flatten

/-- Source `areas`: the set of normalized non-null supervisor area
cells (note: built from the supervisor sheet only). -/
def areas (d : ProblemData) : List String :=
  (((raw_areas d).filterMap id).map normalize_area).dedup

/-- One preference list: normalize each non-null cell, preserving order
(the comprehension on lines 46 and 53). -/
def prefList (cols : List (Option String)) : List String :=
  cols.filterMap (fun o => o.map normalize_area)

/-- Dictionary lookup by name; a later row with the same name shadows an
earlier one, as in a Python dict comprehension. -/
def findSupervisor (d : ProblemData) (n : String) : Option Supervisor :=
  d.supervisors.reverse.find? (fun v => v.name == n)

def findStudent (d : ProblemData) (n : String) : Option Student :=
  d.students.reverse.find? (fun s => s.name == n)

/-- Source `supervisor_preferences[n]`. -/
def supervisor_preferences (d : ProblemData) (n : String) : List String :=
  ((findSupervisor d n).map (fun v => prefList (supervisorCols v))).getD []

/-- Source `student_preferences[n]`. -/
def student_preferences (d : ProblemData) (n : String) : List String :=
  ((findStudent d n).map (fun s => prefList s.proposals)).getD []

/-- Source `workload[n]` dictionary. -/
def workload (d : ProblemData) (n : String) : Nat :=
  ((findSupervisor d n).map (·.workload)).getD 0

/-- A decision-variable index: (student name, supervisor name, area). -/
abbrev Triple := String × String × String

/-- Source `satisfaction[(student, supervisor, area)]` (line 102). -/
def satisfaction (d : ProblemData) (t : Triple) : Int :=
  student_points (student_preferences d t.1) t.2.2 +
    supervisor_points (supervisor_preferences d t.2.1) t.2.2

/-- The variable index set in loop order (lines 72-75): students x
supervisors x areas. -/
def tripleList (d : ProblemData) : List Triple :=
  (student_names d).flatMap fun s =>
    (supervisor_names d).flatMap fun v =>
      (areas d).map fun a => (s, v, a)

/-- The variable index set as a finite set; a 0/1 valuation of the
variables is identified with the subset of triples valued 1. -/
def triples (d : ProblemData) : Finset Triple := (tripleList d).toFinset

/-! ### Model builder (DissMatch.py lines 104-138)

The objective and the three constraint families are added to `prob` in
source order. A constraint is represented syntactically by `Constr`
and its meaning over a 0/1 valuation by `constrSem`; a sum of binary
variables over a loop becomes the count, over the loop list, of
triples valued 1. -/

inductive Constr where
  | studentLe (s : String)
  | supCap (v : String)
  | zero (t : Triple)
deriving DecidableEq

/-- The constraint list added to `prob`, in source order: one per-student
constraint (lines 116-121), one per-supervisor constraint (lines
125-130), and one zeroing constraint per triple whose satisfaction
score is -20 (lines 134-138). -/
def buildConstraints (d : ProblemData) : List Constr :=
  ((student_names d).map Constr.studentLe) ++
    ((supervisor_names d).map Constr.supCap) ++
    (((tripleList d).filter (fun t => satisfaction d t == -20)).map Constr.zero)

/-- The variables summed by the per-student constraint of student `s`. -/
def studentVarList (d : ProblemData) (s : String) : List Triple :=
  (supervisor_names d).flatMap fun v => (areas d).map fun a => (s, v, a)

/-- The variables summed by the per-supervisor constraint of `v`. -/
def supVarList (d : ProblemData) (v : String) : List Triple :=
  (student_names d).flatMap fun s => (areas d).map fun a => (s, v, a)

/-- Value of a sum of 0/1 variables over a loop list at valuation `sel`. -/
def selCount (sel : Finset Triple) (l : List Triple) : Nat :=
  l.countP (fun t => decide (t ∈ sel))

/-- Meaning of one constraint at a 0/1 valuation `sel`. -/
def constrSem (d : ProblemData) (sel : Finset Triple) : Constr → Prop
  | .studentLe s => selCount sel (studentVarList d s) ≤ 1
  | .supCap v => selCount sel (supVarList d v) ≤ workload d v
  | .zero t => t ∉ sel

instance constrSemDecidable (d : ProblemData) (sel : Finset Triple) :
    ∀ c : Constr, Decidable (constrSem d sel c)
  | .studentLe s => inferInstanceAs (Decidable (_ ≤ _))
  | .supCap v => inferInstanceAs (Decidable (_ ≤ _))
  | .zero t => inferInstanceAs (Decidable (_ ∉ _))

/-- A 0/1 valuation is feasible when it uses only the declared variables
and satisfies every constraint handed to the solver. -/
def Feasible (d : ProblemData) (sel : Finset Triple) : Prop :=
  sel ⊆ triples d ∧ ∀ c ∈ buildConstraints d, constrSem d sel c

instance feasibleDecidable (d : ProblemData) (sel : Finset Triple) :
    Decidable (Feasible d sel) :=
  inferInstanceAs (Decidable (_ ∧ _))

/-- Value of the objective `lpSum(satisfaction * x)` (lines 105-110) at a
0/1 valuation. -/
def objectiveValue (d : ProblemData) (sel : Finset Triple) : Int :=
  ((tripleList d).map (fun t => satisfaction d t * (if t ∈ sel then 1 else 0))).sum

/-- A solved run with a feasible 0/1 optimum: the valuation is feasible
and no feasible valuation of the declared variables scores higher. -/
def OptimalSolution (d : ProblemData) (sel : Finset Triple) : Prop :=
  Feasible d sel ∧
    ∀ s ∈ (triples d).powerset, Feasible d s → objectiveValue d s ≤ objectiveValue d sel

instance optimalDecidable (d : ProblemData) (sel : Finset Triple) :
    Decidable (OptimalSolution d sel) :=
  inferInstanceAs (Decidable (_ ∧ _))

/-! ### Solution extraction and post-solve checks (DissMatch.py lines 148-279)

Reading a solved variable value `> 0.5` is membership in `sel`. The
script then recomputes the total satisfaction, each supervisor load and
the unmatched students, and prints them; nothing in this section raises
an error or aborts. -/

/-- Source `total_satisfaction` (lines 188-194): the satisfaction scores
of the selected triples, summed in loop order. -/
def total_satisfaction (d : ProblemData) (sel : Finset Triple) : Int :=
  (((tripleList d).filter (fun t => decide (t ∈ sel))).map (satisfaction d)).sum

/-- Whether some selected triple assigns student `s` (lines 256-261). -/
def assignedStudent (d : ProblemData) (sel : Finset Triple) (s : String) : Bool :=
  (supervisor_names d).any fun v => (areas d).any fun a => decide ((s, v, a) ∈ sel)

/-- Source `unmatched` (lines 254-263): students with no selected triple. -/
def unmatched (d : ProblemData) (sel : Finset Triple) : List String :=
  (student_names d).filter (fun s => !assignedStudent d sel s)

/-- Source per-supervisor assigned count (lines 198-204). -/
def supervisorCount (d : ProblemData) (sel : Finset Triple) (v : String) : Nat :=
  selCount sel (supVarList d v)

/-- The data the post-solve section of the script computes and prints. -/
structure Report where
  total : Int
  loads : List (String × Nat × Nat)
  unmatchedStudents : List String
deriving DecidableEq

/-- The post-solve section as the source implements it: a total function
that always produces the report, whatever the valuation looks like. -/
def postSolveReport (d : ProblemData) (sel : Finset Triple) : Report :=
  { total := total_satisfaction d sel
    loads := (supervisor_names d).map (fun v => (v, supervisorCount d sel v, workload d v))
    unmatchedStudents := unmatched d sel }

/-- The post-solve section as the spec words it (error-handling clause
c): an invariant violation - recomputed total differing from the
reported objective, or a supervisor over capacity - is fatal, so no
report is produced for a violating valuation. -/
def postSolveReportSpec (d : ProblemData) (sel : Finset Triple) : Option Report :=
  if total_satisfaction d sel ≠ objectiveValue d sel ∨
      ∃ v ∈ supervisor_names d, workload d v < supervisorCount d sel v then
    none
  else
    some (postSolveReport d sel)

/-! ### Helper lemmas -/

theorem mem_prefList {cols : List (Option String)} {a : String} :
    a ∈ prefList cols ↔ ∃ s : String, some s ∈ cols ∧ normalize_area s = a := by
  simp only [prefList, List.mem_filterMap, Option.map_eq_some']
  constructor
  · rintro ⟨o, ho, s, rfl, rfl⟩
    exact ⟨s, ho, rfl⟩
  · rintro ⟨s, hs, rfl⟩
    exact ⟨some s, hs, s, rfl, rfl⟩

theorem mem_areas {d : ProblemData} {a : String} :
    a ∈ areas d ↔ ∃ v ∈ d.supervisors, a ∈ prefList (supervisorCols v) := by
  simp only [areas, raw_areas, List.mem_dedup, List.mem_map, List.mem_filterMap,
    List.mem_flatten, id_eq, mem_prefList]
  constructor
  · rintro ⟨r, ⟨o, ⟨l, ⟨v, hv, rfl⟩, hol⟩, ho⟩, rfl⟩
    exact ⟨v, hv, r, ho ▸ hol, rfl⟩
  · rintro ⟨v, hv, s, hs, rfl⟩
    exact ⟨s, ⟨some s, ⟨supervisorCols v, ⟨v, hv, rfl⟩, hs⟩, rfl⟩, rfl⟩

theorem mem_tripleList {d : ProblemData} {t : Triple} :
    t ∈ tripleList d ↔
      t.1 ∈ student_names d ∧ t.2.1 ∈ supervisor_names d ∧ t.2.2 ∈ areas d := by
  obtain ⟨s, v, a⟩ := t
  simp only [tripleList, List.mem_flatMap, List.mem_map, Prod.mk.injEq]
  constructor
  · rintro ⟨s1, hs1, v1, hv1, a1, ha1, rfl, rfl, rfl⟩
    exact ⟨hs1, hv1, ha1⟩
  · rintro ⟨hs, hv, ha⟩
    exact ⟨s, hs, v, hv, a, ha, rfl, rfl, rfl⟩

theorem mem_studentVarList {d : ProblemData} {s : String} {t : Triple} :
    t ∈ studentVarList d s ↔
      t.1 = s ∧ t.2.1 ∈ supervisor_names d ∧ t.2.2 ∈ areas d := by
  obtain ⟨s1, v, a⟩ := t
  simp only [studentVarList, List.mem_flatMap, List.mem_map, Prod.mk.injEq]
  constructor
  · rintro ⟨v1, hv1, a1, ha1, rfl, rfl, rfl⟩
    exact ⟨rfl, hv1, ha1⟩
  · rintro ⟨rfl, hv, ha⟩
    exact ⟨v, hv, a, ha, rfl, rfl, rfl⟩

theorem mem_supVarList {d : ProblemData} {v : String} {t : Triple} :
    t ∈ supVarList d v ↔
      t.1 ∈ student_names d ∧ t.2.1 = v ∧ t.2.2 ∈ areas d := by
  obtain ⟨s, v1, a⟩ := t
  simp only [supVarList, List.mem_flatMap, List.mem_map, Prod.mk.injEq]
  constructor
  · rintro ⟨s1, hs1, a1, ha1, rfl, rfl, rfl⟩
    exact ⟨hs1, rfl, ha1⟩
  · rintro ⟨hs, rfl, ha⟩
    exact ⟨s, hs, a, ha, rfl, rfl, rfl⟩

theorem student_points_eq_spec (prefs : List String) (a : String) :
    student_points prefs a = studentUtilSpec prefs a := by
  match prefs with
  | [] => rfl
  | [p0] =>
    by_cases h0 : p0 = a <;>
      simp [student_points, studentUtilSpec, rankUtilStudent, List.indexOf_cons, h0] <;>
      (try (split_ifs <;> simp_all [eq_comm]))
  | [p0, p1] =>
    by_cases h0 : p0 = a <;> by_cases h1 : p1 = a <;>
      simp [student_points, studentUtilSpec, rankUtilStudent, List.indexOf_cons, h0, h1] <;>
      (try (split_ifs <;> simp_all [eq_comm]))
  | p0 :: p1 :: p2 :: tl =>
    by_cases h0 : p0 = a <;> by_cases h1 : p1 = a <;> by_cases h2 : p2 = a <;>
      by_cases hm : a ∈ tl <;>
      simp [student_points, studentUtilSpec, rankUtilStudent, List.indexOf_cons,
        h0, h1, h2, hm] <;>
      (try (split_ifs <;> simp_all [eq_comm]))

theorem supervisor_points_eq_spec (prefs : List String) (a : String) :
    supervisor_points prefs a = supervisorUtilSpec prefs a := by
  match prefs with
  | [] => rfl
  | [p0] =>
    by_cases h0 : p0 = a <;>
      simp [supervisor_points, supervisorUtilSpec, rankUtilSupervisor,
        List.indexOf_cons, h0] <;>
      (try (split_ifs <;> simp_all [eq_comm]))
  | [p0, p1] =>
    by_cases h0 : p0 = a <;> by_cases h1 : p1 = a <;>
      simp [supervisor_points, supervisorUtilSpec, rankUtilSupervisor,
        List.indexOf_cons, h0, h1] <;>
      (try (split_ifs <;> simp_all [eq_comm]))
  | [p0, p1, p2] =>
    by_cases h0 : p0 = a <;> by_cases h1 : p1 = a <;> by_cases h2 : p2 = a <;>
      simp [supervisor_points, supervisorUtilSpec, rankUtilSupervisor,
        List.indexOf_cons, h0, h1, h2] <;>
      (try (split_ifs <;> simp_all [eq_comm]))
  | [p0, p1, p2, p3] =>
    by_cases h0 : p0 = a <;> by_cases h1 : p1 = a <;> by_cases h2 : p2 = a <;>
      by_cases h3 : p3 = a <;>
      simp [supervisor_points, supervisorUtilSpec, rankUtilSupervisor,
        List.indexOf_cons, h0, h1, h2, h3] <;>
      (try (split_ifs <;> simp_all [eq_comm]))
  | p0 :: p1 :: p2 :: p3 :: p4 :: tl =>
    by_cases h0 : p0 = a <;> by_cases h1 : p1 = a <;> by_cases h2 : p2 = a <;>
      by_cases h3 : p3 = a <;> by_cases h4 : p4 = a <;> by_cases hm : a ∈ tl <;>
      simp [supervisor_points, supervisorUtilSpec, rankUtilSupervisor,
        List.indexOf_cons, h0, h1, h2, h3, h4, hm] <;>
      (try (split_ifs <;> simp_all [eq_comm]))

theorem student_points_of_not_mem {prefs : List String} {a : String} (h : a ∉ prefs) :
    student_points prefs a = -10 := by
  unfold student_points
  split_ifs with h0 h1 h2 <;>
    first
      | rfl
      | exact absurd (List.getElem?_mem (by assumption)) h

theorem supervisor_points_of_not_mem {prefs : List String} {a : String} (h : a ∉ prefs) :
    supervisor_points prefs a = -10 := by
  unfold supervisor_points
  split_ifs <;>
    first
      | rfl
      | exact absurd (List.getElem?_mem (by assumption)) h

theorem mem_take_three_iff {l : List String} {a : String} :
    a ∈ l.take 3 ↔ l[0]? = some a ∨ l[1]? = some a ∨ l[2]? = some a := by
  match l with
  | [] => simp
  | [p0] => simp [eq_comm]
  | [p0, p1] => simp [eq_comm]
  | p0 :: p1 :: p2 :: tl => simp [List.take, eq_comm]

theorem student_points_shape (prefs : List String) (a : String) :
    (student_points prefs a = -10 ∧ a ∉ prefs.take 3) ∨
      (5 ≤ student_points prefs a ∧ student_points prefs a ≤ 10 ∧ a ∈ prefs.take 3) := by
  unfold student_points
  split_ifs with h0 h1 h2
  · exact Or.inr ⟨by norm_num, by norm_num, mem_take_three_iff.mpr (Or.inl h0)⟩
  · exact Or.inr ⟨by norm_num, by norm_num, mem_take_three_iff.mpr (Or.inr (Or.inl h1))⟩
  · exact Or.inr ⟨by norm_num, by norm_num, mem_take_three_iff.mpr (Or.inr (Or.inr h2))⟩
  · refine Or.inl ⟨rfl, fun hmem => ?_⟩
    rcases mem_take_three_iff.mp hmem with h | h | h <;> contradiction

theorem supervisor_points_shape (prefs : List String) (a : String) :
    supervisor_points prefs a = -10 ∨
      (1 ≤ supervisor_points prefs a ∧ supervisor_points prefs a ≤ 5 ∧ a ∈ prefs) := by
  unfold supervisor_points
  split_ifs with h0 h1 h2 h3 h4 <;>
    first
      | exact Or.inl rfl
      | exact Or.inr ⟨by norm_num, by norm_num,
          List.getElem?_mem (by assumption)⟩

theorem supervisor_points_of_mem {prefs : List String} {a : String}
    (hmem : a ∈ prefs) (hlen : prefs.length ≤ 5) :
    1 ≤ supervisor_points prefs a ∧ supervisor_points prefs a ≤ 5 := by
  obtain ⟨i, hi⟩ := List.mem_iff_getElem?.mp hmem
  have hilt : i < prefs.length := by
    rcases List.getElem?_eq_some.mp hi with ⟨h, _⟩
    exact h
  have hi5 : i < 5 := by omega
  unfold supervisor_points
  split_ifs with h0 h1 h2 h3 h4 <;> try norm_num
  exfalso
  interval_cases i <;> contradiction

theorem supervisor_preferences_length (d : ProblemData) (n : String) :
    (supervisor_preferences d n).length ≤ 5 := by
  unfold supervisor_preferences
  rcases findSupervisor d n with _ | v
  · simp
  · simpa [prefList, supervisorCols] using
      List.length_filterMap_le (fun o => o.map normalize_area) (supervisorCols v)

theorem satisfaction_eq_neg20_iff (d : ProblemData) (t : Triple) :
    satisfaction d t = -20 ↔
      student_points (student_preferences d t.1) t.2.2 = -10 ∧
        supervisor_points (supervisor_preferences d t.2.1) t.2.2 = -10 := by
  unfold satisfaction
  rcases student_points_shape (student_preferences d t.1) t.2.2 with ⟨h1, _⟩ | ⟨h1, h1b, _⟩ <;>
    rcases supervisor_points_shape (supervisor_preferences d t.2.1) t.2.2 with h2 | ⟨h2, h2b, _⟩ <;>
    constructor <;> intro h <;> omega

theorem sum_filter_eq_sum_ite (sel : Finset Triple) (f : Triple → Int) (L : List Triple) :
    ((L.filter (fun t => decide (t ∈ sel))).map f).sum =
      (L.map (fun t => f t * (if t ∈ sel then 1 else 0))).sum := by
  induction L with
  | nil => rfl
  | cons a L ih =>
    by_cases ha : a ∈ sel <;>
      simp [List.filter_cons, ha, ih]

theorem sum_ite_erase (sel : Finset Triple) (f : Triple → Int) (t : Triple)
    (ht : t ∈ sel) (L : List Triple) :
    (L.map (fun u => f u * (if u ∈ sel then 1 else 0))).sum =
      (L.map (fun u => f u * (if u ∈ sel.erase t then 1 else 0))).sum +
        f t * L.count t := by
  induction L with
  | nil => simp
  | cons a L ih =>
    by_cases hat : a = t
    · subst hat
      simp only [List.map_cons, List.sum_cons, if_pos ht, ih, List.count_cons_self,
        if_neg (Finset.not_mem_erase a sel)]
      push_cast
      ring
    · have hmem : a ∈ sel.erase t ↔ a ∈ sel := by
        simp [Finset.mem_erase, hat]
      simp only [List.map_cons, List.sum_cons, hmem, ih,
        List.count_cons_of_ne (Ne.symm hat)]
      ring

theorem total_satisfaction_eq_objectiveValue (d : ProblemData) (sel : Finset Triple) :
    total_satisfaction d sel = objectiveValue d sel :=
  sum_filter_eq_sum_ite sel (satisfaction d) (tripleList d)

theorem objectiveValue_erase_add (d : ProblemData) (sel : Finset Triple) (t : Triple)
    (ht : t ∈ sel) :
    objectiveValue d sel =
      objectiveValue d (sel.erase t) + satisfaction d t * ((tripleList d).count t) :=
  sum_ite_erase sel (satisfaction d) t ht (tripleList d)

theorem selCount_mono {sel1 sel : Finset Triple} (h : sel1 ⊆ sel) (l : List Triple) :
    selCount sel1 l ≤ selCount sel l := by
  unfold selCount
  apply List.countP_mono_left
  intro a _ ha
  exact decide_eq_true (h (of_decide_eq_true ha))

theorem Feasible.erase {d : ProblemData} {sel : Finset Triple} (h : Feasible d sel)
    (t : Triple) : Feasible d (sel.erase t) := by
  obtain ⟨hsub, hcon⟩ := h
  refine ⟨Finset.Subset.trans (Finset.erase_subset t sel) hsub, fun c hc => ?_⟩
  have hc2 := hcon c hc
  match c with
  | .studentLe s =>
    exact le_trans (selCount_mono (Finset.erase_subset t sel) _) hc2
  | .supCap v =>
    exact le_trans (selCount_mono (Finset.erase_subset t sel) _) hc2
  | .zero u =>
    intro hu
    exact hc2 (Finset.mem_of_mem_erase hu)

theorem card_filter_le_selCount (sel : Finset Triple) (P : Triple → Prop)
    [DecidablePred P] (L : List Triple) (hL : ∀ t ∈ sel, P t → t ∈ L) :
    (sel.filter P).card ≤ selCount sel L := by
  have hsub : (sel.filter P) ⊆ (L.filter (fun t => decide (t ∈ sel))).toFinset := by
    intro t htf
    rcases Finset.mem_filter.mp htf with ⟨hts, htP⟩
    simp only [List.mem_toFinset, List.mem_filter]
    exact ⟨hL t hts htP, decide_eq_true hts⟩
  calc (sel.filter P).card
      ≤ ((L.filter (fun t => decide (t ∈ sel))).toFinset).card :=
        Finset.card_le_card hsub
    _ ≤ (L.filter (fun t => decide (t ∈ sel))).length := L.filter _ |>.toFinset_card_le
    _ = selCount sel L := (List.countP_eq_length_filter _ _).symm

theorem prefList_eq_map (cols : List (Option String)) :
    prefList cols = (cols.filterMap id).map normalize_area := by
  induction cols with
  | nil => rfl
  | cons o l ih =>
    cases o <;> simp [prefList, List.filterMap_cons] <;>
      simpa [prefList] using ih

/-! ### Claim theorems -/

/-- C7: the area normalizer is idempotent on every cell, the three
example spellings "Area 1.", "area1" and " AREA, 1" all normalize to
the same canonical string "area", and a non-string cell passes through
unchanged. -/
theorem c7_normalize_idempotent_format_insensitive :
    (∀ c : Cell, normalize_area_cell (normalize_area_cell c) = normalize_area_cell c) ∧
    (normalize_area "Area 1." = "area" ∧ normalize_area "area1" = "area" ∧
      normalize_area " AREA, 1" = "area") ∧
    (∀ t : Nat, normalize_area_cell (.nonstr t) = .nonstr t) := by
  refine ⟨fun c => ?_, ⟨by decide, by decide, by decide⟩, fun t => rfl⟩
  match c with
  | .str s => simpa [normalize_area_cell] using normalize_area_idem s
  | .nonstr t => rfl

/-- C3: the student-side scorer returns exactly the 10/7/5 tier of the
rank at which the area first occurs in the student preference sequence
and -10 otherwise; the supervisor-side scorer returns the 5/4/3/2/1
tier or -10 likewise; and the edge weight of a triple is the sum of the
two utilities, each computed from that side preference list alone. -/
theorem c3_scorer_matches_tiers :
    (∀ (prefs : List String) (a : String),
        student_points prefs a = studentUtilSpec prefs a) ∧
    (∀ (prefs : List String) (a : String),
        supervisor_points prefs a = supervisorUtilSpec prefs a) ∧
    (∀ (d : ProblemData) (s v a : String),
        satisfaction d (s, v, a) =
          student_points (student_preferences d s) a +
            supervisor_points (supervisor_preferences d v) a) :=
  ⟨student_points_eq_spec, supervisor_points_eq_spec, fun _ _ _ _ => rfl⟩

/-- C10: the student preference sequence keeps every non-null
proposal_* cell in column order (no truncation to three), and an area
that is listed but not among the first three entries scores -10 on the
student side, exactly like an unlisted area. -/
theorem c10_late_rank_scores_like_unlisted :
    (∀ st : Student, prefList st.proposals = (st.proposals.filterMap id).map normalize_area) ∧
    (∀ (prefs : List String) (a : String), a ∈ prefs → a ∉ prefs.take 3 →
      student_points prefs a = -10) ∧
    (∀ (prefs : List String) (a : String), a ∉ prefs → student_points prefs a = -10) := by
  refine ⟨fun st => prefList_eq_map st.proposals, fun prefs a _ h3 => ?_,
    fun prefs a h => student_points_of_not_mem h⟩
  rcases student_points_shape prefs a with ⟨h10, _⟩ | ⟨_, _, hmem3⟩
  · exact h10
  · exact absurd hmem3 h3

theorem c10_witness :
    ("d" ∈ ["a", "b", "c", "d"] ∧ "d" ∉ (["a", "b", "c", "d"].take 3)) ∧
      student_points ["a", "b", "c", "d"] "d" = -10 :=
  ⟨⟨by decide, by decide⟩,
    c10_late_rank_scores_like_unlisted.2.1 ["a", "b", "c", "d"] "d" (by decide) (by decide)⟩

def c5data : ProblemData :=
  { supervisors := [⟨"v", 1, some "b", none, none, none, none⟩],
    students := [⟨"s", [some "a"]⟩] }

/-- C5 counterexample: area "a" is absent from the supervisor
preference sequence (one side) but is the student first choice, and the
edge weight is 10 + (-10) = 0, not -20; absence from one side only does
not force the -20 weight. -/
theorem c5_counterexample :
    "a" ∉ supervisor_preferences c5data "v" ∧
      satisfaction c5data ("s", "v", "a") = 0 ∧
      satisfaction c5data ("s", "v", "a") ≠ -20 :=
  ⟨by decide, by decide, by decide⟩

/-- C5 amended: if the area is absent from the student preference
sequence AND absent from the supervisor preference sequence, the edge
weight is exactly -20. -/
theorem c5_amended_absent_from_both (d : ProblemData) (s v a : String)
    (hs : a ∉ student_preferences d s) (hv : a ∉ supervisor_preferences d v) :
    satisfaction d (s, v, a) = -20 := by
  unfold satisfaction
  rw [student_points_of_not_mem hs, supervisor_points_of_not_mem hv]
  decide

theorem c5_witness :
    ("z" ∉ student_preferences c5data "s" ∧ "z" ∉ supervisor_preferences c5data "v") ∧
      satisfaction c5data ("s", "v", "z") = -20 :=
  ⟨⟨by decide, by decide⟩,
    c5_amended_absent_from_both c5data "s" "v" "z" (by decide) (by decide)⟩

def c9data : ProblemData :=
  { supervisors := [⟨"v", 1, some "a", none, none, none, none⟩],
    students := [⟨"s", [some "b", some "c", some "d", some "a"]⟩] }

/-- C9 counterexample: the student lists area "a" fourth, the
supervisor lists it first, so the area is in both preference sequences
(eligible in the sense of the claim), yet the edge weight is
(-10) + 5 = -5: an eligible edge of weight -5 exists and the bound
11 <= weight fails. -/
theorem c9_counterexample :
    "a" ∈ student_preferences c9data "s" ∧
      "a" ∈ supervisor_preferences c9data "v" ∧
      satisfaction c9data ("s", "v", "a") = -5 :=
  ⟨by decide, by decide, by decide⟩

/-- C9 amended: for an edge whose area is among the first three entries
of the student sequence and anywhere in the supervisor sequence (which
has at most five entries), the weight lies between 6 = 5 + 1 and
15 = 10 + 5, and in particular is never -5. -/
theorem c9_amended_eligible_bounds (d : ProblemData) (s v a : String)
    (hs : a ∈ (student_preferences d s).take 3) (hv : a ∈ supervisor_preferences d v) :
    6 ≤ satisfaction d (s, v, a) ∧ satisfaction d (s, v, a) ≤ 15 ∧
      satisfaction d (s, v, a) ≠ -5 := by
  have h2 := supervisor_points_of_mem hv (supervisor_preferences_length d v)
  have hdef : satisfaction d (s, v, a) =
      student_points (student_preferences d s) a +
        supervisor_points (supervisor_preferences d v) a := rfl
  rw [hdef]
  rcases student_points_shape (student_preferences d s) a with ⟨_, hna⟩ | ⟨hge, hle, _⟩
  · exact absurd hs hna
  · exact ⟨by omega, by omega, by omega⟩

def c9wdata : ProblemData :=
  { supervisors := [⟨"v", 1, some "p", some "q", some "r", some "w", some "a"⟩],
    students := [⟨"s", [some "m", some "n", some "a"]⟩] }

theorem c9_witness :
    ("a" ∈ (student_preferences c9wdata "s").take 3 ∧
        "a" ∈ supervisor_preferences c9wdata "v") ∧
      (6 ≤ satisfaction c9wdata ("s", "v", "a") ∧
        satisfaction c9wdata ("s", "v", "a") ≤ 15 ∧
        satisfaction c9wdata ("s", "v", "a") ≠ -5) :=
  ⟨⟨by decide, by decide⟩,
    c9_amended_eligible_bounds c9wdata "s" "v" "a" (by decide) (by decide)⟩

def c4data : ProblemData :=
  { supervisors := [⟨"v", 1, some "A", none, none, none, none⟩],
    students := [⟨"s", [some "B"]⟩] }

/-- C4 counterexample: student "s" names area "B" (normalized "b"), no
supervisor names it, and "b" is not in the area set: line 41 builds the
set from the supervisor sheet only, not from both person types. -/
theorem c4_counterexample :
    "b" ∈ student_preferences c4data "s" ∧ "b" ∉ areas c4data :=
  ⟨by decide, by decide⟩

/-- C4 amended: the area set is exactly the set of normalized non-null
area mentions of the supervisor rows; student mentions do not enter it. -/
theorem c4_amended_areas_supervisors_only (d : ProblemData) (a : String) :
    a ∈ areas d ↔ ∃ v ∈ d.supervisors, a ∈ prefList (supervisorCols v) :=
  mem_areas

/-- C2: the constraint list handed to the solver contains exactly one
per-student at-most-one constraint per student, one per-supervisor
capacity constraint per supervisor, and one zeroing constraint per
triple whose edge weight is -10 + -10 = -20 (the sum of the two
mismatch penalties); and a valuation satisfies the whole list exactly
when every student sum is at most 1, every supervisor sum is at most
its workload, and every -20 triple is unselected. -/
theorem c2_model_constraint_set (d : ProblemData) :
    (∀ c : Constr, c ∈ buildConstraints d ↔
      ((∃ s ∈ student_names d, c = Constr.studentLe s) ∨
       (∃ v ∈ supervisor_names d, c = Constr.supCap v) ∨
       (∃ t ∈ tripleList d, satisfaction d t = -10 + -10 ∧ c = Constr.zero t))) ∧
    (∀ sel : Finset Triple,
      (∀ c ∈ buildConstraints d, constrSem d sel c) ↔
        ((∀ s ∈ student_names d, selCount sel (studentVarList d s) ≤ 1) ∧
         (∀ v ∈ supervisor_names d, selCount sel (supVarList d v) ≤ workload d v) ∧
         (∀ t ∈ tripleList d, satisfaction d t = -10 + -10 → t ∉ sel))) := by
  have hpen : (-10 + -10 : Int) = -20 := by decide
  rw [hpen]
  constructor
  · intro c
    simp only [buildConstraints, List.mem_append, List.mem_map, List.mem_filter,
      beq_iff_eq]
    constructor
    · rintro ((⟨s, hs, rfl⟩ | ⟨v, hv, rfl⟩) | ⟨t, ⟨ht, hsat⟩, rfl⟩)
      · exact Or.inl ⟨s, hs, rfl⟩
      · exact Or.inr (Or.inl ⟨v, hv, rfl⟩)
      · exact Or.inr (Or.inr ⟨t, ht, hsat, rfl⟩)
    · rintro (⟨s, hs, rfl⟩ | ⟨v, hv, rfl⟩ | ⟨t, ht, hsat, rfl⟩)
      · exact Or.inl (Or.inl ⟨s, hs, rfl⟩)
      · exact Or.inl (Or.inr ⟨v, hv, rfl⟩)
      · exact Or.inr ⟨t, ⟨ht, hsat⟩, rfl⟩
  · intro sel
    simp only [buildConstraints, List.forall_mem_append, List.forall_mem_map,
      List.forall_mem_filter, beq_iff_eq, constrSem]
    tauto

def c1xdata : ProblemData :=
  { supervisors := [⟨"u", 0, some "a", none, none, none, none⟩,
                    ⟨"v", 1, some "b", none, none, none, none⟩],
    students := [⟨"s", [some "a"]⟩] }

def c1xsel : Finset Triple := {("s", "v", "a")}

/-- C1 counterexample: the valuation selecting the single edge
("s", "v", "a") is feasible and optimal (its weight is 10 - 10 = 0,
the objective optimum), yet area "a" does not occur in the preference
sequence of supervisor "v": a solved feasible 0/1 optimum can violate
the mutual-eligibility invariant, because the pruning constraint only
removes edges of weight exactly -20. -/
theorem c1_counterexample :
    OptimalSolution c1xdata c1xsel ∧ ("s", "v", "a") ∈ c1xsel ∧
      "a" ∉ supervisor_preferences c1xdata "v" :=
  ⟨by decide, by decide, by decide⟩

/-- C1 amended: in every feasible 0/1 solution (hence in every solved
optimum) each student occurs in at most one selected edge and each
supervisor in at most workload-many selected edges; and every selected
edge has weight different from -20, equivalently its area occurs among
the first three entries of the student preference sequence or occurs in
the supervisor preference sequence. Mutual presence in both sequences
is not guaranteed. -/
theorem c1_amended_feasible_invariants (d : ProblemData) (sel : Finset Triple)
    (h : Feasible d sel) :
    (∀ s ∈ student_names d, (sel.filter (fun t => t.1 = s)).card ≤ 1) ∧
    (∀ v ∈ supervisor_names d, (sel.filter (fun t => t.2.1 = v)).card ≤ workload d v) ∧
    (∀ t ∈ sel, satisfaction d t ≠ -20 ∧
      (t.2.2 ∈ (student_preferences d t.1).take 3 ∨
        t.2.2 ∈ supervisor_preferences d t.2.1)) := by
  obtain ⟨hsub, hcon⟩ := h
  refine ⟨fun s hs => ?_, fun v hv => ?_, fun t ht => ?_⟩
  · have hc := hcon (Constr.studentLe s)
      (by
        simp only [buildConstraints, List.mem_append, List.mem_map]
        exact Or.inl (Or.inl ⟨s, hs, rfl⟩))
    refine le_trans (card_filter_le_selCount sel _ (studentVarList d s) ?_) hc
    intro u hu h1
    have := mem_tripleList.mp (List.mem_toFinset.mp (hsub hu))
    exact mem_studentVarList.mpr ⟨h1, this.2.1, this.2.2⟩
  · have hc := hcon (Constr.supCap v)
      (by
        simp only [buildConstraints, List.mem_append, List.mem_map]
        exact Or.inl (Or.inr ⟨v, hv, rfl⟩))
    refine le_trans (card_filter_le_selCount sel _ (supVarList d v) ?_) hc
    intro u hu h1
    have := mem_tripleList.mp (List.mem_toFinset.mp (hsub hu))
    exact mem_supVarList.mpr ⟨this.1, h1, this.2.2⟩
  · have htl : t ∈ tripleList d := List.mem_toFinset.mp (hsub ht)
    have hne : satisfaction d t ≠ -20 := by
      intro hsat
      have hc := hcon (Constr.zero t)
        (by
          simp only [buildConstraints, List.mem_append, List.mem_map, List.mem_filter,
            beq_iff_eq]
          exact Or.inr ⟨t, ⟨htl, hsat⟩, rfl⟩)
      exact hc ht
    refine ⟨hne, ?_⟩
    have hiff := (satisfaction_eq_neg20_iff d t).not.mp hne
    rcases student_points_shape (student_preferences d t.1) t.2.2 with ⟨h10, _⟩ | ⟨_, _, hm⟩
    · rcases supervisor_points_shape (supervisor_preferences d t.2.1) t.2.2 with
        h10b | ⟨_, _, hmb⟩
      · exact absurd ⟨h10, h10b⟩ hiff
      · exact Or.inr hmb
    · exact Or.inl hm

def c1wdata : ProblemData :=
  { supervisors := [⟨"v", 1, some "a", none, none, none, none⟩],
    students := [⟨"s", [some "a"]⟩] }

def c1wsel : Finset Triple := {("s", "v", "a")}

theorem c1_witness :
    Feasible c1wdata c1wsel ∧
      ((∀ s ∈ student_names c1wdata, (c1wsel.filter (fun t => t.1 = s)).card ≤ 1) ∧
       (∀ v ∈ supervisor_names c1wdata,
          (c1wsel.filter (fun t => t.2.1 = v)).card ≤ workload c1wdata v) ∧
       (∀ t ∈ c1wsel, satisfaction c1wdata t ≠ -20 ∧
          (t.2.2 ∈ (student_preferences c1wdata t.1).take 3 ∨
            t.2.2 ∈ supervisor_preferences c1wdata t.2.1))) :=
  ⟨by decide, c1_amended_feasible_invariants c1wdata c1wsel (by decide)⟩

def c6data : ProblemData :=
  { supervisors := [⟨"v", 0, some "a", none, none, none, none⟩],
    students := [⟨"s", [some "a"]⟩] }

def c6sel : Finset Triple := {("s", "v", "a")}

/-- C6 counterexample: at this valuation supervisor "v" is over
capacity (1 assigned, workload 0). The spec-worded validator
`postSolveReportSpec` treats the violation as fatal and produces no
report, but the source post-solve section `postSolveReport` still
produces the ordinary report: the violation is printed alongside the
other statistics, never raised as an error. -/
theorem c6_counterexample :
    workload c6data "v" < supervisorCount c6data c6sel "v" ∧
      postSolveReportSpec c6data c6sel = none ∧
      postSolveReport c6data c6sel =
        { total := 15, loads := [("v", 1, 0)], unmatchedStudents := [] } :=
  ⟨by decide, by decide, by decide⟩

/-- C6 amended: the total satisfaction the script recomputes from the
selected edges always equals the objective value of the model at the
returned valuation; post-solve invariant violations (such as a
supervisor over capacity) appear in the computed report but are not
fatal - the report is produced for every valuation. -/
theorem c6_amended_total_equals_objective (d : ProblemData) (sel : Finset Triple) :
    (postSolveReport d sel).total = objectiveValue d sel ∧
      (postSolveReport d sel).loads =
        (supervisor_names d).map (fun v => (v, supervisorCount d sel v, workload d v)) :=
  ⟨total_satisfaction_eq_objectiveValue d sel, rfl⟩

/-- C8: a student whose normalized preference sequence shares no area
with the preference list of any supervisor row is unmatched in every
solved optimal run: every edge of that student scores at most -5, and
an optimal solution that selected one could be improved by dropping it. -/
theorem c8_no_shared_area_unmatched (d : ProblemData) (sel : Finset Triple)
    (stu : String) (hstu : stu ∈ student_names d)
    (hshare : ∀ v ∈ d.supervisors, ∀ a ∈ student_preferences d stu,
      a ∉ prefList (supervisorCols v))
    (hopt : OptimalSolution d sel) :
    stu ∈ unmatched d sel := by
  obtain ⟨hfeas, hmax⟩ := hopt
  rw [unmatched, List.mem_filter]
  refine ⟨hstu, ?_⟩
  rw [Bool.not_eq_true']
  by_contra hb
  rw [Bool.not_eq_false] at hb
  simp only [assignedStudent, List.any_eq_true, decide_eq_true_eq] at hb
  obtain ⟨v, hv, a, ha, hmem⟩ := hb
  have hanostu : a ∉ student_preferences d stu := by
    intro hmem2
    obtain ⟨vr, hvr, har⟩ := mem_areas.mp ha
    exact hshare vr hvr a hmem2 har
  have hsat : satisfaction d (stu, v, a) < 0 := by
    have hdef : satisfaction d (stu, v, a) =
        student_points (student_preferences d stu) a +
          supervisor_points (supervisor_preferences d v) a := rfl
    rw [hdef, student_points_of_not_mem hanostu]
    rcases supervisor_points_shape (supervisor_preferences d v) a with h | ⟨_, h5, _⟩ <;>
      omega
  have herase : Feasible d (sel.erase (stu, v, a)) := hfeas.erase _
  have hle : objectiveValue d (sel.erase (stu, v, a)) ≤ objectiveValue d sel :=
    hmax _ (Finset.mem_powerset.mpr
      (Finset.Subset.trans (Finset.erase_subset _ _) hfeas.1)) herase
  have hcount : 0 < (tripleList d).count (stu, v, a) :=
    List.count_pos_iff.mpr (List.mem_toFinset.mp (hfeas.1 hmem))
  have hobj := objectiveValue_erase_add d sel (stu, v, a) hmem
  have hneg : satisfaction d (stu, v, a) * ((tripleList d).count (stu, v, a)) < 0 :=
    mul_neg_of_neg_of_pos hsat (by exact_mod_cast hcount)
  linarith

def c8data : ProblemData :=
  { supervisors := [⟨"v", 1, some "b", none, none, none, none⟩],
    students := [⟨"s", [some "a"]⟩] }

theorem c8_witness :
    ("s" ∈ student_names c8data ∧
      (∀ v ∈ c8data.supervisors, ∀ a ∈ student_preferences c8data "s",
        a ∉ prefList (supervisorCols v)) ∧
      OptimalSolution c8data ∅) ∧
      "s" ∈ unmatched c8data ∅ :=
  ⟨⟨by decide, by decide, by decide⟩,
    c8_no_shared_area_unmatched c8data ∅ "s" (by decide) (by decide) (by decide)⟩

end DissMatch
